import Mathlib

/-
Verification development for the Wikipedia sentence scraper.

The crawl-frontier engine (wikipedia_scraper.py, class WikipediaScraper) is
embedded as a state-transition system over the four shared collections, with
one atomic action per lock-protected region of the source.  The extraction
pipeline (sentence_finder.py, class SentenceFinder) is embedded as pure
functions over character lists.
-/

set_option maxRecDepth 100000
set_option maxHeartbeats 4000000

/-! ## Crawl frontier state (wikipedia_scraper.py) -/

/-- The four shared collections of `WikipediaScraper`.
`links_to_visit`, `visited_links`, `currently_downloading` are managed lists
of URL strings.  `downloaded_responses` is a managed dict keyed by URL with
the fetched response as value; response bodies are irrelevant to every claim
(link discovery is an external capability fed in by the `enqueue` action), so
only the insertion-ordered key list is modelled. -/
structure ScraperState where
  links_to_visit : List String
  visited_links : List String
  currently_downloading : List String
  downloaded_responses : List String
  deriving DecidableEq

/-- The buffer bound `WikipediaScraper.DOWNLOADED_RESPONSES_TO_BUFFER = 100`. -/
def DOWNLOADED_RESPONSES_TO_BUFFER : Nat := 100

/-- Model of `WikipediaScraper.BASE_WIKIPEDIA_URL.format(language)`:
the base URL with the language substituted in. -/
def baseWikipediaUrl (language : String) : String :=
  "https://" ++ language ++ ".wikipedia.org"

/-- The page tag `WikipediaScraper.WIKI_PAGE_TAG`. -/
def WIKI_PAGE_TAG : String := "/wiki/"

/-- Insertion into the `downloaded_responses` dict: assigning to an existing
key overwrites in place (the key list is unchanged), a new key is appended at
the end (Python dicts preserve insertion order). -/
def insertKey (keys : List String) (url : String) : List String :=
  if url ∈ keys then keys else keys ++ [url]

/-- The href filter of `WikipediaScraper.parse_links`: the relative link must
start with `/wiki/` and contain no colon.  (`str.startswith` is expressed
over the character lists.) -/
def validWikiHref (href : String) : Bool :=
  List.isPrefixOf WIKI_PAGE_TAG.toList href.toList && !(href.toList.contains ':')

/-- The list `parse_links` appends to `links_to_visit`: hrefs of the page
that pass `validWikiHref`, prefixed with the base wikipedia URL, keeping only
links not already in `visited_links`, `currently_downloading` or the key set
of `downloaded_responses` (note: `links_to_visit` itself is not checked). -/
def parseLinksFilter (base : String) (s : ScraperState) (hrefs : List String) : List String :=
  ((hrefs.filter validWikiHref).map (fun h => base ++ h)).filter
    (fun link =>
      decide (link ∉ s.visited_links) &&
      decide (link ∉ s.currently_downloading) &&
      decide (link ∉ s.downloaded_responses))

/-- One atomic (lock-protected) mutation of the shared state.
* `dequeue` — the pop branch of `page_download_worker` (lines 155–161).
* `fetchOk url` — a successful `requests.get`: the dict insert at line 166
  together with the removal from `currently_downloading` at line 172.
* `fetchFail url` — `requests.get` raising `ConnectionError`: only the
  removal from `currently_downloading` (lines 167–173).
* `consume` — the locked pop of `__next__` (lines 118–120): the first
  (oldest-inserted) key of `downloaded_responses` is removed.
* `enqueue hrefs` — the locked append of `parse_links` (lines 198–205) for a
  page whose anchor hrefs are `hrefs` (link extraction is the external
  document capability, so the hrefs are a parameter). -/
inductive CrawlAction where
  | dequeue : CrawlAction
  | fetchOk : String → CrawlAction
  | fetchFail : String → CrawlAction
  | consume : CrawlAction
  | enqueue : List String → CrawlAction
  deriving DecidableEq

/-- Is the action a `dequeue`? -/
def isDequeueAction : CrawlAction → Bool
  | CrawlAction.dequeue => true
  | _ => false

/-- Count of the `dequeue` actions of a trace; in a run in
which every action succeeds this is the number of `TryDequeuePending`
successes. -/
def countDequeues (acts : List CrawlAction) : Nat :=
  (acts.filter isDequeueAction).length

/-- The transition function of the crawl engine with `N` download workers.
`dequeue` is enabled only when `links_to_visit` is non-empty, the response
buffer is below `DOWNLOADED_RESPONSES_TO_BUFFER`, and some worker is idle
(fewer than `N` URLs are currently downloading); it pops the most recently
added pending link (`list.pop()` takes the last element) and appends it to
both `currently_downloading` and `visited_links`. -/
def step (base : String) (N : Nat) (s : ScraperState) : CrawlAction → Option ScraperState
  | CrawlAction.dequeue =>
    if 0 < s.links_to_visit.length ∧
        s.downloaded_responses.length < DOWNLOADED_RESPONSES_TO_BUFFER ∧
        s.currently_downloading.length < N then
      match s.links_to_visit.getLast? with
      | some url =>
        some ⟨s.links_to_visit.dropLast, s.visited_links ++ [url],
              s.currently_downloading ++ [url], s.downloaded_responses⟩
      | none => none
    else none
  | CrawlAction.fetchOk url =>
    if url ∈ s.currently_downloading then
      some ⟨s.links_to_visit, s.visited_links,
            s.currently_downloading.erase url, insertKey s.downloaded_responses url⟩
    else none
  | CrawlAction.fetchFail url =>
    if url ∈ s.currently_downloading then
      some ⟨s.links_to_visit, s.visited_links,
            s.currently_downloading.erase url, s.downloaded_responses⟩
    else none
  | CrawlAction.consume =>
    match s.downloaded_responses with
    | [] => none
    | _ :: rest =>
      some ⟨s.links_to_visit, s.visited_links, s.currently_downloading, rest⟩
  | CrawlAction.enqueue hrefs =>
    some ⟨s.links_to_visit ++ parseLinksFilter base s hrefs, s.visited_links,
          s.currently_downloading, s.downloaded_responses⟩

/-- Run a trace of atomic actions; `none` if some action is not enabled. -/
def run (base : String) (N : Nat) (s : ScraperState) : List CrawlAction → Option ScraperState
  | [] => some s
  | a :: acts =>
    match step base N s a with
    | some s2 => run base N s2 acts
    | none => none

/-- The state `__iter__` sets up on a cold start (no progress restored):
all collections cleared and the initial URL appended to `links_to_visit`. -/
def coldStart (initialUrl : String) : ScraperState :=
  ⟨[initialUrl], [], [], []⟩

/-! ## Concrete traces refuting the dedup and backpressure claims -/

/-- The default initial URL for language `en` (`initial_url=None` makes
`initial_url = wikipedia_url`). -/
def enWikipediaUrl : String := baseWikipediaUrl "en"

/-- Absolute URL of the page with href `/wiki/B`. -/
def c1PageB : String := enWikipediaUrl ++ "/wiki/B"

/-- Absolute URL of the page with href `/wiki/C`. -/
def c1PageC : String := enWikipediaUrl ++ "/wiki/C"

/-- A single-worker crawl in which the seed page links to `/wiki/B` and
`/wiki/C`, and page C links to `/wiki/B` again.  When page C is consumed,
`B` is still waiting in `links_to_visit` — `parse_links` checks
`visited_links`, `currently_downloading` and `downloaded_responses` but not
`links_to_visit` — so `B` is enqueued a second time, dequeued twice, and
fetched twice. -/
def c1Trace : List CrawlAction :=
  [CrawlAction.dequeue, CrawlAction.fetchOk enWikipediaUrl, CrawlAction.consume,
   CrawlAction.enqueue ["/wiki/B", "/wiki/C"],
   CrawlAction.dequeue, CrawlAction.fetchOk c1PageC, CrawlAction.consume,
   CrawlAction.enqueue ["/wiki/B"],
   CrawlAction.dequeue, CrawlAction.fetchOk c1PageB,
   CrawlAction.dequeue, CrawlAction.fetchOk c1PageB]

/-- Absolute URL of the page with href `/wiki/D` (the fetch-failure trace). -/
def c4PageD : String := enWikipediaUrl ++ "/wiki/D"

/-- A single-worker crawl in which the seed page carries two anchors to
`/wiki/D` (both pass the `parse_links` filter, which never checks
`links_to_visit`), the first fetch of `D` fails with `ConnectionError`, and
the duplicate pending copy is then dequeued and fetched successfully —
placing the fetch-failed URL into `downloaded_responses` after all. -/
def c4Trace : List CrawlAction :=
  [CrawlAction.dequeue, CrawlAction.fetchOk enWikipediaUrl, CrawlAction.consume,
   CrawlAction.enqueue ["/wiki/D", "/wiki/D"],
   CrawlAction.dequeue, CrawlAction.fetchFail c4PageD,
   CrawlAction.dequeue, CrawlAction.fetchOk c4PageD]

/-- Relative href of the i-th page linked by the seed in the backpressure
trace: `/wiki/` followed by `i` letters `a` (distinct pages of distinct
lengths). -/
def c2Href (i : Nat) : String := "/wiki/" ++ String.mk (List.replicate i 'a')

/-- Absolute URL of the i-th page of the backpressure trace. -/
def c2Page (i : Nat) : String := enWikipediaUrl ++ c2Href i

/-- The 102 hrefs on the seed page of the backpressure trace. -/
def c2Hrefs : List String := (List.range 102).map c2Href

/-- Opening of the two-worker backpressure trace: the seed page is fetched,
consumed and found to link to 102 pages (the consumer never polls again). -/
def c2SetupTrace : List CrawlAction :=
  [CrawlAction.dequeue, CrawlAction.fetchOk enWikipediaUrl, CrawlAction.consume,
   CrawlAction.enqueue c2Hrefs]

/-- One fetch-and-buffer round per URL of `Q`, popping `Q` from its right
end (the pop order of the stack-like pending list): the rounds for the
deeper entries come first. -/
def fillTraceRev : List String → List CrawlAction
  | [] => []
  | u :: us => fillTraceRev us ++ [CrawlAction.dequeue, CrawlAction.fetchOk u]

/-- The 99 pages (numbers 3 to 101) fetched and buffered during the middle
of the backpressure trace, listed in pending order. -/
def c2FillQ : List String := (List.range 99).map (fun i => c2Page (3 + i))

/-- Closing of the backpressure trace: with 99 buffered responses, both
workers pass the `len(downloaded_responses) < 100` check before either
inserts, and then both insert, leaving 101 buffered responses. -/
def c2TailTrace : List CrawlAction :=
  [CrawlAction.dequeue, CrawlAction.dequeue,
   CrawlAction.fetchOk (c2Page 2), CrawlAction.fetchOk (c2Page 1)]

/-- The full two-worker backpressure trace. -/
def c2Trace : List CrawlAction :=
  c2SetupTrace ++ (fillTraceRev c2FillQ ++ c2TailTrace)

/-! ## The driver protocol of `__next__` -/

/-- The three outcomes of `WikipediaScraper.__next__`: `stop` raises
`StopIteration`, `notReady` returns `(None, None, None)`, `ready url` hands
the popped response (its URL in this model) to the caller. -/
inductive NextResult where
  | stop : NextResult
  | notReady : NextResult
  | ready : String → NextResult
  deriving DecidableEq

/-- The termination test of `__next__` (lines 105–107): all three of
`links_to_visit`, `currently_downloading` and `downloaded_responses` have
length zero. -/
def isDrained (s : ScraperState) : Bool :=
  s.links_to_visit.length = 0 &&
  s.currently_downloading.length = 0 &&
  s.downloaded_responses.length = 0

/-- The locked portion of `WikipediaScraper.__next__` (lines 102–123): if
drained, kill the workers and raise `StopIteration` (the collections are
untouched); else if the response buffer is empty return the not-ready triple;
else pop the first buffered response and return it. -/
def nextStep (s : ScraperState) : NextResult × ScraperState :=
  if isDrained s then
    (NextResult.stop, s)
  else
    match s.downloaded_responses with
    | [] => (NextResult.notReady, s)
    | u :: rest =>
      (NextResult.ready u,
       ⟨s.links_to_visit, s.visited_links, s.currently_downloading, rest⟩)

/-! ## Checkpointing (progress files) -/

/-- One parsed progress record: `{timestamp, links_to_visit, visited_links}`
as pickled by `progress_log_worker`.  `time.time()` values are modelled as
rationals. -/
structure Progress where
  timestamp : ℚ
  links_to_visit : List String
  visited_links : List String
  deriving DecidableEq

/-- Insert a record into a list sorted by strictly descending timestamp,
placing it after existing records with an equal timestamp, so that the fold
below models Python's stable `sorted(..., key=timestamp, reverse=True)`. -/
def insertDesc (p : Progress) : List Progress → List Progress
  | [] => [p]
  | q :: qs => if q.timestamp < p.timestamp then p :: q :: qs else q :: insertDesc p qs

/-- Stable sort by descending timestamp (insertion sort, earlier slots
first among equal timestamps). -/
def sortDescStable (l : List Progress) : List Progress :=
  l.foldl (fun acc p => insertDesc p acc) []

/-- Model of `WikipediaScraper.load_progress_file` (lines 242–276), abstracted over
the parse results of the progress slots: a slot that is missing
(`FileNotFoundError`) or truncated (`EOFError`) parses to `none` and is
skipped; if no slot parsed the load fails (`return False`); otherwise the
record with the largest timestamp is returned (`sorted(..., reverse=True)[0]`). -/
def load_progress_file (slots : List (Option Progress)) : Option Progress :=
  let progresses := slots.filterMap id
  if progresses.isEmpty then none
  else (sortDescStable progresses).head?

/-- Model of `WikipediaScraper.__iter__` (lines 67–75) after clearing the collections:
a successful load restores `links_to_visit` and `visited_links` (the other
two collections stay cleared); otherwise the initial URL is seeded. -/
def iterInit (initialUrl : String) : Option Progress → ScraperState
  | none => coldStart initialUrl
  | some p => ⟨p.links_to_visit, p.visited_links, [], []⟩

/-- The snapshot written by `progress_log_worker` (lines 225–237): the
current time, `links_to_visit + currently_downloading` as one list, and
`visited_links`. -/
def progressSnapshot (t : ℚ) (s : ScraperState) : Progress :=
  ⟨t, s.links_to_visit ++ s.currently_downloading, s.visited_links⟩

/-! ## Derived predicates used by the invariant theorems -/

/-- The buffer invariant of the crawl with `N` workers: at most `N` URLs are
downloading, and each downloading URL accounts for at most one future buffer
insert above the `len(downloaded_responses) < 100` check. -/
def BufferInv (N : Nat) (s : ScraperState) : Prop :=
  s.currently_downloading.length ≤ N ∧
  s.downloaded_responses.length + s.currently_downloading.length ≤
    (DOWNLOADED_RESPONSES_TO_BUFFER - 1) + N

/-- A URL that is recorded in `visited_links` and sits in none of the other
three collections: the state of a URL whose fetch failed (and that was never
enqueued twice). -/
def DroppedUrl (url : String) (s : ScraperState) : Prop :=
  url ∈ s.visited_links ∧ url ∉ s.links_to_visit ∧
  url ∉ s.currently_downloading ∧ url ∉ s.downloaded_responses

/-! ## Sentence extraction (sentence_finder.py) -/

/-- A character matched by the `[A-Z]` class of the sentence pattern. -/
def isAsciiUpperChar (c : Char) : Bool :=
  'A' ≤ c && c ≤ 'Z'

/-- A character matched by the `[.!?]` class of the sentence pattern. -/
def isTerminatorChar (c : Char) : Bool :=
  c = '.' || c = '!' || c = '?'

/-- One blank-replacement pass of `parsing_worker` (lines 87–89): newlines,
carriage returns and tabs become spaces. -/
def blanksToSpaces (l : List Char) : List Char :=
  l.map (fun c => if c = '\n' || c = '\r' || c = '\t' then ' ' else c)

/-- Python `str.strip()` after the blank replacement: drop spaces at both ends. -/
def stripSpaces (l : List Char) : List Char :=
  ((l.dropWhile (fun c => c = ' ')).reverse.dropWhile (fun c => c = ' ')).reverse

/-- Model of `re.sub(' +', ' ', ...)`: collapse each run of spaces to one space. -/
def collapseSpaces : List Char → List Char
  | [] => []
  | [c] => [c]
  | c1 :: c2 :: rest =>
    if c1 = ' ' && c2 = ' ' then collapseSpaces (c2 :: rest)
    else c1 :: collapseSpaces (c2 :: rest)

/-- The whitespace normalization of `parsing_worker` (lines 87–93), in
source order: replace blanks, strip, collapse space runs. -/
def normalizeText (l : List Char) : List Char :=
  collapseSpaces (stripSpaces (blanksToSpaces l))

/-- Scan for the first `[.!?]` character: `some (body, term, after)` splits
`l` into the terminator-free part before the first terminator, the
terminator, and the rest; `none` when `l` has no terminator. -/
def splitAtTerminator : List Char → Option (List Char × Char × List Char)
  | [] => none
  | c :: rest =>
    if isTerminatorChar c then some ([], c, rest)
    else
      match splitAtTerminator rest with
      | some (body, term, after) => some (c :: body, term, after)
      | none => none

/-- The scanning loop of `re.findall(r'([A-Z][^.!?]*[.!?])', text)`.
`acc = none`: outside a match, looking for an `[A-Z]` character to start
one.  `acc = some a`: inside a match whose characters so far are
`a.reverse`; a `[.!?]` character closes and emits the match (after it the
scan resumes outside), any other character is consumed by `[^.!?]*`; if the
text ends first, the attempt matches nothing (and no later start can match,
as no terminator remains). -/
def findSentencesAux : Option (List Char) → List Char → List (List Char)
  | _, [] => []
  | none, c :: rest =>
    if isAsciiUpperChar c then findSentencesAux (some [c]) rest
    else findSentencesAux none rest
  | some a, c :: rest =>
    if isTerminatorChar c then (a.reverse ++ [c]) :: findSentencesAux none rest
    else findSentencesAux (some (c :: a)) rest

/-- Model of `re.findall(r'([A-Z][^.!?]*[.!?])', text)` (line 96): the non-overlapping
left-to-right matches of the sentence-candidate pattern. -/
def findSentences (l : List Char) : List (List Char) :=
  findSentencesAux none l

/-- The rule-substring starting at the head of `t`, when `t` begins with an
`[A-Z]` character and still has a terminator ahead: the segment from that
character through the first terminator (inclusive). -/
def ruleCandidateOf : List Char → Option (List Char)
  | [] => none
  | c :: rest =>
    if isAsciiUpperChar c then
      match splitAtTerminator rest with
      | some (body, term, _) => some (c :: (body ++ [term]))
      | none => none
    else none

/-- Every substring of `l` described by the rule "starts with an uppercase
letter and runs until the first `.`, `!` or `?` (inclusive)": one for each
suffix of `l` whose head starts such a substring. -/
def ruleCandidates (l : List Char) : List (List Char) :=
  l.tails.filterMap ruleCandidateOf

/-- ASCII lowercasing, the effect of `re.I` on the patterns of the
`sentence_matcher` table (their letters are ASCII). -/
def lowerAscii (c : Char) : Char :=
  if 'A' ≤ c && c ≤ 'Z' then Char.ofNat (c.toNat + 32) else c

/-- Does `l` start with the literal pattern `pat` (pattern already
lowercase), comparing case-insensitively? -/
def startsWithCI (pat : List Char) (l : List Char) : Bool :=
  match pat, l with
  | [], _ => true
  | _ :: _, [] => false
  | p :: ps, c :: cs => (lowerAscii c = p) && startsWithCI ps cs

/-- Does the literal pattern `pat` occur anywhere in `l`,
case-insensitively? -/
def containsCI (pat : List Char) (l : List Char) : Bool :=
  l.tails.any (fun t => startsWithCI pat t)

/-- The `sentence_matcher` pattern table of `SentenceFinder.__init__`
(sentence_finder.py lines 29–33): a regular-expression string per language,
with a match-everything default. -/
def sentence_matcher (language : String) : String :=
  if language = "en" then "(last|took|take).* (day)"
  else if language = "sr" then "(traja|траја).* (dan|дан)"
  else ".*"

/-- Model of `re.search(sentence_matcher "en", s, flags=re.I)`, the filter
applied to each candidate when the language is English:
some position starts one of the three four-letter alternatives, and at some
later position (at least four characters on) a space followed by `day`
occurs.  (The candidates contain no newline, so `.*` is unrestricted.) -/
def matchesEnglishPattern (s : List Char) : Bool :=
  s.tails.any (fun t =>
    (startsWithCI "last".toList t || startsWithCI "took".toList t ||
     startsWithCI "take".toList t) &&
    containsCI " day".toList (t.drop 4))

/-- The sentence extraction of `parsing_worker` on a page's normalized
content text: the regex findall for sentence candidates followed by the
language-specific filter. -/
def extractedSentences (matcher : List Char → Bool) (contentText : String) : List (List Char) :=
  (findSentences (normalizeText contentText.toList)).filter matcher

/-- The output line for one matched sentence (line 112):
`'{title} - {sentence}'` plus the newline. -/
def outputLine (title : String) (sentence : List Char) : String :=
  title ++ " - " ++ String.mk sentence ++ "\n"

/-- The effect of one `parsing_worker` iteration on the worker's output file
(lines 96–113), as a function from the old file contents (a list of lines)
to the new: the matched sentences are appended only when there is at least
one (`len(sentences) > 0`); otherwise the file is not touched. -/
def workerProcessPage (matcher : List Char → Bool) (title : String)
    (contentText : String) (fileContents : List String) : List String :=
  let sentences := extractedSentences matcher contentText
  if 0 < sentences.length then
    fileContents ++ sentences.map (fun s => outputLine title s)
  else fileContents

/-- The pop branch of `parsing_worker` (lines 77–78) on the shared
`available_pages` list: `list.pop()` removes and returns the most recently
appended `(title, response_content)` pair, or the pop is not taken when the
list is empty. -/
def sfTryPop (pages : List (String × String)) :
    Option ((String × String) × List (String × String)) :=
  match pages.getLast? with
  | none => none
  | some p => some (p, pages.dropLast)

/-! ## Per-step lemmas about the crawl transition system -/

theorem step_visited_length {base : String} {N : Nat} {s s' : ScraperState}
    {a : CrawlAction} (h : step base N s a = some s') :
    s'.visited_links.length =
      s.visited_links.length + (if isDequeueAction a then 1 else 0) := by
  cases a with
  | dequeue =>
    simp only [step] at h
    split at h
    · split at h
      · cases h; simp [isDequeueAction]
      · exact absurd h (by simp)
    · exact absurd h (by simp)
  | fetchOk url =>
    simp only [step] at h
    split at h
    · cases h; simp [isDequeueAction]
    · exact absurd h (by simp)
  | fetchFail url =>
    simp only [step] at h
    split at h
    · cases h; simp [isDequeueAction]
    · exact absurd h (by simp)
  | consume =>
    simp only [step] at h
    split at h
    · exact absurd h (by simp)
    · cases h; simp [isDequeueAction]
  | enqueue hrefs =>
    simp only [step] at h
    cases h
    simp [isDequeueAction]

theorem mem_parseLinksFilter {base : String} {s : ScraperState} {hrefs : List String}
    {url : String} (h : url ∈ parseLinksFilter base s hrefs) :
    url ∉ s.visited_links ∧ url ∉ s.currently_downloading ∧
    url ∉ s.downloaded_responses := by
  have h2 := (List.mem_filter.1 h).2
  simp only [Bool.and_eq_true, decide_eq_true_eq] at h2
  exact ⟨h2.1.1, h2.1.2, h2.2⟩

theorem step_visited_not_reenqueued {base : String} {N : Nat} {s s' : ScraperState}
    {a : CrawlAction} {url : String} (h : step base N s a = some s')
    (hv : url ∈ s.visited_links) :
    url ∈ s'.visited_links ∧
    s'.links_to_visit.count url ≤ s.links_to_visit.count url := by
  cases a with
  | dequeue =>
    simp only [step] at h
    split at h
    · split at h
      · cases h
        exact ⟨by simp [hv], List.Sublist.count_le (List.dropLast_sublist _) url⟩
      · exact absurd h (by simp)
    · exact absurd h (by simp)
  | fetchOk u =>
    simp only [step] at h
    split at h
    · cases h; exact ⟨hv, le_refl _⟩
    · exact absurd h (by simp)
  | fetchFail u =>
    simp only [step] at h
    split at h
    · cases h; exact ⟨hv, le_refl _⟩
    · exact absurd h (by simp)
  | consume =>
    simp only [step] at h
    split at h
    · exact absurd h (by simp)
    · cases h; exact ⟨hv, le_refl _⟩
  | enqueue hrefs =>
    simp only [step] at h
    cases h
    refine ⟨hv, ?_⟩
    dsimp only
    rw [List.count_append]
    have hz : (parseLinksFilter base s hrefs).count url = 0 := by
      rw [List.count_eq_zero]
      intro hmem
      exact (mem_parseLinksFilter hmem).1 hv
    omega

theorem step_bufferInv {base : String} {N : Nat} {s s' : ScraperState}
    {a : CrawlAction} (h : step base N s a = some s') (hinv : BufferInv N s) :
    BufferInv N s' := by
  obtain ⟨h1, h2⟩ := hinv
  cases a with
  | dequeue =>
    simp only [step] at h
    split at h
    · rename_i hcond
      obtain ⟨-, hbuf, hidle⟩ := hcond
      split at h
      · cases h
        unfold BufferInv at *
        simp only [List.length_append, List.length_cons, List.length_nil,
          DOWNLOADED_RESPONSES_TO_BUFFER] at *
        omega
      · exact absurd h (by simp)
    · exact absurd h (by simp)
  | fetchOk u =>
    simp only [step] at h
    split at h
    · rename_i hmem
      cases h
      have he : (s.currently_downloading.erase u).length =
          s.currently_downloading.length - 1 := List.length_erase_of_mem hmem
      have hmemlen : 1 ≤ s.currently_downloading.length :=
        List.length_pos.2 (List.ne_nil_of_mem hmem)
      have hik : (insertKey s.downloaded_responses u).length ≤
          s.downloaded_responses.length + 1 := by
        unfold insertKey
        split
        · omega
        · simp
      unfold BufferInv at *
      dsimp only
      rw [he]
      simp only [DOWNLOADED_RESPONSES_TO_BUFFER] at *
      omega
    · exact absurd h (by simp)
  | fetchFail u =>
    simp only [step] at h
    split at h
    · rename_i hmem
      cases h
      have he : (s.currently_downloading.erase u).length =
          s.currently_downloading.length - 1 := List.length_erase_of_mem hmem
      unfold BufferInv at *
      dsimp only
      rw [he]
      omega
    · exact absurd h (by simp)
  | consume =>
    simp only [step] at h
    split at h
    · exact absurd h (by simp)
    · rename_i u rest hg
      cases h
      rw [hg] at h2
      unfold BufferInv at *
      simp only [List.length_cons] at h2
      exact ⟨h1, by dsimp only; omega⟩
  | enqueue hrefs =>
    simp only [step] at h
    cases h
    exact ⟨h1, h2⟩

theorem run_split {base : String} {N : Nat} {s s2 : ScraperState} {a : CrawlAction}
    {acts : List CrawlAction} (hs : step base N s a = some s2) {s' : ScraperState} :
    run base N s (a :: acts) = some s' ↔ run base N s2 acts = some s' := by
  simp only [run, hs]

theorem run_append {base : String} {N : Nat} {t2 : List CrawlAction} :
    ∀ {t1 : List CrawlAction} {s s1 s' : ScraperState},
      run base N s t1 = some s1 → run base N s1 t2 = some s' →
      run base N s (t1 ++ t2) = some s'
  | [], s, s1, s', h1, h2 => by
    simp only [run, Option.some.injEq] at h1
    subst h1
    simpa using h2
  | a :: t1, s, s1, s', h1, h2 => by
    rw [List.cons_append]
    simp only [run] at h1 ⊢
    cases hs : step base N s a with
    | none => rw [hs] at h1; exact absurd h1 (by simp)
    | some s2 =>
      rw [hs] at h1
      simp only [hs]
      exact run_append h1 h2

theorem countDequeues_cons (a : CrawlAction) (acts : List CrawlAction) :
    countDequeues (a :: acts) =
      (if isDequeueAction a then 1 else 0) + countDequeues acts := by
  simp only [countDequeues, List.filter_cons]
  cases isDequeueAction a <;> simp [Nat.add_comm]

theorem run_visited_length {base : String} {N : Nat} :
    ∀ {acts : List CrawlAction} {s s' : ScraperState},
      run base N s acts = some s' →
      s'.visited_links.length = s.visited_links.length + countDequeues acts
  | [], s, s', h => by
    simp only [run, Option.some.injEq] at h
    subst h
    simp [countDequeues]
  | a :: acts, s, s', h => by
    simp only [run] at h
    cases hs : step base N s a with
    | none => rw [hs] at h; exact absurd h (by simp)
    | some s2 =>
      rw [hs] at h
      have ih := run_visited_length h
      have hstep := step_visited_length hs
      rw [ih, hstep, countDequeues_cons]
      omega

theorem run_visited_not_reenqueued {base : String} {N : Nat} :
    ∀ {acts : List CrawlAction} {s s' : ScraperState} {url : String},
      run base N s acts = some s' → url ∈ s.visited_links →
      url ∈ s'.visited_links ∧
      s'.links_to_visit.count url ≤ s.links_to_visit.count url
  | [], s, s', url, h, hv => by
    simp only [run, Option.some.injEq] at h
    subst h
    exact ⟨hv, le_refl _⟩
  | a :: acts, s, s', url, h, hv => by
    simp only [run] at h
    cases hs : step base N s a with
    | none => rw [hs] at h; exact absurd h (by simp)
    | some s2 =>
      rw [hs] at h
      have hstep := step_visited_not_reenqueued hs hv
      have ih := run_visited_not_reenqueued h hstep.1
      exact ⟨ih.1, le_trans ih.2 hstep.2⟩

theorem run_bufferInv {base : String} {N : Nat} :
    ∀ {acts : List CrawlAction} {s s' : ScraperState},
      run base N s acts = some s' → BufferInv N s → BufferInv N s'
  | [], s, s', h, hinv => by
    simp only [run, Option.some.injEq] at h
    subst h
    exact hinv
  | a :: acts, s, s', h, hinv => by
    simp only [run] at h
    cases hs : step base N s a with
    | none => rw [hs] at h; exact absurd h (by simp)
    | some s2 =>
      rw [hs] at h
      exact run_bufferInv h (step_bufferInv hs hinv)

theorem step_dropped {base : String} {N : Nat} {s s' : ScraperState}
    {a : CrawlAction} {url : String} (h : step base N s a = some s')
    (hd : DroppedUrl url s) : DroppedUrl url s' := by
  obtain ⟨hv, hp, hc, hr⟩ := hd
  cases a with
  | dequeue =>
    simp only [step] at h
    split at h
    · split at h
      · rename_i hg
        cases h
        have hu := List.mem_of_getLast?_eq_some hg
        have hne : ∀ u2, s.links_to_visit.getLast? = some u2 → u2 ≠ url := by
          intro u2 hg2 he
          exact hp (he ▸ List.mem_of_getLast?_eq_some hg2)
        refine ⟨by simp [hv], ?_, ?_, hr⟩
        · intro hx
          exact hp ((List.dropLast_sublist _).subset hx)
        · intro hx
          rcases List.mem_append.1 hx with hx | hx
          · exact hc hx
          · simp at hx
            exact hne _ hg hx.symm
      · exact absurd h (by simp)
    · exact absurd h (by simp)
  | fetchOk u =>
    simp only [step] at h
    split at h
    · rename_i hmem
      cases h
      have hne : u ≠ url := fun he => hc (he ▸ hmem)
      refine ⟨hv, hp, ?_, ?_⟩
      · intro hx; exact hc (List.mem_of_mem_erase hx)
      · intro hx
        dsimp only at hx
        unfold insertKey at hx
        split at hx
        · exact hr hx
        · rcases List.mem_append.1 hx with hx | hx
          · exact hr hx
          · simp at hx; exact hne hx.symm
    · exact absurd h (by simp)
  | fetchFail u =>
    simp only [step] at h
    split at h
    · cases h
      refine ⟨hv, hp, ?_, hr⟩
      intro hx; exact hc (List.mem_of_mem_erase hx)
    · exact absurd h (by simp)
  | consume =>
    simp only [step] at h
    split at h
    · exact absurd h (by simp)
    · rename_i u rest hg
      cases h
      refine ⟨hv, hp, hc, ?_⟩
      intro hx
      exact hr (by rw [hg]; exact List.mem_cons_of_mem u hx)
  | enqueue hrefs =>
    simp only [step] at h
    cases h
    refine ⟨hv, ?_, hc, hr⟩
    intro hx
    dsimp only at hx
    rcases List.mem_append.1 hx with hx | hx
    · exact hp hx
    · exact (mem_parseLinksFilter hx).1 hv

theorem run_dropped {base : String} {N : Nat} :
    ∀ {acts : List CrawlAction} {s s' : ScraperState} {url : String},
      run base N s acts = some s' → DroppedUrl url s → DroppedUrl url s'
  | [], s, s', url, h, hd => by
    simp only [run, Option.some.injEq] at h
    subst h
    exact hd
  | a :: acts, s, s', url, h, hd => by
    simp only [run] at h
    cases hs : step base N s a with
    | none => rw [hs] at h; exact absurd h (by simp)
    | some s2 =>
      rw [hs] at h
      exact run_dropped h (step_dropped hs hd)

theorem step_dequeue_concat {base : String} {N : Nat} {s : ScraperState}
    {l : List String} {u : String} (hp : s.links_to_visit = l ++ [u])
    (hb : s.downloaded_responses.length < DOWNLOADED_RESPONSES_TO_BUFFER)
    (hw : s.currently_downloading.length < N) :
    step base N s CrawlAction.dequeue =
      some ⟨l, s.visited_links ++ [u], s.currently_downloading ++ [u],
            s.downloaded_responses⟩ := by
  have hlen : 0 < s.links_to_visit.length := by rw [hp]; simp
  have hg : s.links_to_visit.getLast? = some u := by
    rw [hp]; exact List.getLast?_concat _
  simp only [step, if_pos (show _ ∧ _ ∧ _ from ⟨hlen, hb, hw⟩), hg]
  rw [hp, List.dropLast_concat]

theorem step_fetchOk_eq {base : String} {N : Nat} {s : ScraperState}
    {url : String} (hm : url ∈ s.currently_downloading) :
    step base N s (CrawlAction.fetchOk url) =
      some ⟨s.links_to_visit, s.visited_links,
            s.currently_downloading.erase url,
            insertKey s.downloaded_responses url⟩ := by
  simp only [step, if_pos hm]

theorem insertKey_of_not_mem {keys : List String} {url : String}
    (h : url ∉ keys) : insertKey keys url = keys ++ [url] := by
  simp [insertKey, h]

theorem parseLinksFilter_all {base : String} {s : ScraperState} {hrefs : List String}
    (hvalid : ∀ h ∈ hrefs, validWikiHref h = true)
    (hfresh : ∀ h ∈ hrefs, (base ++ h) ∉ s.visited_links ∧
      (base ++ h) ∉ s.currently_downloading ∧ (base ++ h) ∉ s.downloaded_responses) :
    parseLinksFilter base s hrefs = hrefs.map (fun h => base ++ h) := by
  unfold parseLinksFilter
  rw [List.filter_eq_self.2 hvalid]
  apply List.filter_eq_self.2
  intro x hx
  obtain ⟨h, hh, rfl⟩ := List.mem_map.1 hx
  have hf := hfresh h hh
  simp [hf.1, hf.2.1, hf.2.2]

theorem fill_run {base : String} {N : Nat} (hN : 0 < N) :
    ∀ (Q P V D : List String), Q.Nodup → (∀ u ∈ Q, u ∉ D) →
      D.length + Q.length ≤ DOWNLOADED_RESPONSES_TO_BUFFER →
      run base N ⟨P ++ Q, V, [], D⟩ (fillTraceRev Q) =
        some ⟨P, V ++ Q.reverse, [], D ++ Q.reverse⟩
  | [], P, V, D, _, _, _ => by
    simp [fillTraceRev, run]
  | u :: us, P, V, D, hnd, hfresh, hlen => by
    have hnd' : us.Nodup := (List.nodup_cons.1 hnd).2
    have hu_us : u ∉ us := (List.nodup_cons.1 hnd).1
    have hfresh' : ∀ v ∈ us, v ∉ D := fun v hv => hfresh v (List.mem_cons_of_mem u hv)
    have hlen' : D.length + us.length ≤ DOWNLOADED_RESPONSES_TO_BUFFER := by
      simp only [List.length_cons] at hlen; omega
    have hIH := @fill_run base N hN us (P ++ [u]) V D hnd' hfresh' hlen'
    have hpend : P ++ (u :: us) = (P ++ [u]) ++ us := by simp
    rw [fillTraceRev, hpend]
    refine run_append hIH ?_
    have hD2 : (D ++ us.reverse).length < DOWNLOADED_RESPONSES_TO_BUFFER := by
      simp only [List.length_append, List.length_reverse, List.length_cons] at hlen ⊢
      omega
    have hstep1 : step base N ⟨P ++ [u], V ++ us.reverse, [], D ++ us.reverse⟩
        CrawlAction.dequeue =
        some ⟨P, (V ++ us.reverse) ++ [u], [u], D ++ us.reverse⟩ := by
      have h0 := @step_dequeue_concat base N
        ⟨P ++ [u], V ++ us.reverse, [], D ++ us.reverse⟩ P u rfl hD2
        (by simpa using hN)
      simpa using h0
    have hu_notin : u ∉ D ++ us.reverse := by
      intro hx
      rcases List.mem_append.1 hx with hx | hx
      · exact hfresh u (List.mem_cons_self u us) hx
      · exact hu_us (List.mem_reverse.1 hx)
    have hstep2 : step base N ⟨P, (V ++ us.reverse) ++ [u], [u], D ++ us.reverse⟩
        (CrawlAction.fetchOk u) =
        some ⟨P, (V ++ us.reverse) ++ [u], [], (D ++ us.reverse) ++ [u]⟩ := by
      have h0 := @step_fetchOk_eq base N
        ⟨P, (V ++ us.reverse) ++ [u], [u], D ++ us.reverse⟩ u
        (List.mem_singleton.2 rfl)
      rw [h0, insertKey_of_not_mem hu_notin]
      simp
    simp only [run, hstep1, hstep2]
    simp

/-! ## C1 — dedup -/

/-- C1 counterexample: the claim "no URL is fetched more than once — a URL
that has ever been dequeued from pending is never dequeued and fetched
again" is false.  In the single-worker execution `c1Trace` from the cold
start, the page `/wiki/B` is discovered twice before its first dequeue
(`parse_links` does not check `links_to_visit`), so it is dequeued and
fetched twice: the final `visited_links` records it twice, while the
visited size (4) does equal the number of dequeue successes (4). -/
theorem dedup_counterexample :
    (run enWikipediaUrl 1 (coldStart enWikipediaUrl) c1Trace).map
      (fun s => (s.visited_links.count c1PageB, s.visited_links.length,
                 countDequeues c1Trace)) = some (2, 4, 4) := by
  decide

/-- C1 (amended): in every crawl execution the size of `visited_links`
equals the number of `TryDequeuePending` successes, and a URL already in
`visited_links` is never enqueued again by `parse_links` (its multiplicity
in `links_to_visit` never grows, so it is fetched again at most as often as
it already sits in the pending list); but a URL not yet dequeued may enter
`links_to_visit` several times and then be fetched more than once. -/
theorem dedup_amended (base : String) (N : Nat) (s : ScraperState)
    (acts : List CrawlAction) (s' : ScraperState)
    (h : run base N s acts = some s') :
    s'.visited_links.length = s.visited_links.length + countDequeues acts ∧
    ∀ url, url ∈ s.visited_links →
      url ∈ s'.visited_links ∧
      s'.links_to_visit.count url ≤ s.links_to_visit.count url := by
  refine ⟨run_visited_length h, fun url hv => run_visited_not_reenqueued h hv⟩

/-- Witness for C1 (amended): a one-dequeue run from a state whose
`visited_links` already holds `v`. -/
theorem dedup_amended_witness :
    (ScraperState.mk [] ["v", "x"] ["x"] []).visited_links.length =
      (ScraperState.mk ["x"] ["v"] [] []).visited_links.length +
        countDequeues [CrawlAction.dequeue] ∧
    ("v" ∈ (ScraperState.mk [] ["v", "x"] ["x"] []).visited_links ∧
     (ScraperState.mk [] ["v", "x"] ["x"] []).links_to_visit.count "v" ≤
       (ScraperState.mk ["x"] ["v"] [] []).links_to_visit.count "v") :=
  ⟨(dedup_amended "b" 1 ⟨["x"], ["v"], [], []⟩ [CrawlAction.dequeue]
      ⟨[], ["v", "x"], ["x"], []⟩ (by decide)).1,
   (dedup_amended "b" 1 ⟨["x"], ["v"], [], []⟩ [CrawlAction.dequeue]
      ⟨[], ["v", "x"], ["x"], []⟩ (by decide)).2 "v" (by decide)⟩

/-! ## C2 — backpressure bound -/

theorem c2Href_toList (i : Nat) :
    (c2Href i).toList = "/wiki/".toList ++ List.replicate i 'a' := by
  show (c2Href i).data = "/wiki/".data ++ List.replicate i 'a'
  rw [c2Href, String.data_append]

theorem c2Href_length (i : Nat) : (c2Href i).length = 6 + i := by
  show (c2Href i).toList.length = 6 + i
  rw [c2Href_toList, List.length_append, List.length_replicate,
    show ("/wiki/".toList.length) = 6 from by decide]

theorem c2Page_length (i : Nat) :
    (c2Page i).length = enWikipediaUrl.length + (6 + i) := by
  unfold c2Page
  rw [String.length_append, c2Href_length]

theorem c2Page_injective : Function.Injective c2Page := by
  intro i j h
  have h2 := congrArg String.length h
  rw [c2Page_length, c2Page_length] at h2
  omega

theorem validWikiHref_c2Href (i : Nat) : validWikiHref (c2Href i) = true := by
  unfold validWikiHref
  rw [c2Href_toList, Bool.and_eq_true]
  constructor
  · exact List.isPrefixOf_iff_prefix.2 (List.prefix_append _ _)
  · rw [Bool.not_eq_true']
    refine Bool.eq_false_iff.2 fun h => ?_
    have hmem : ':' ∈ "/wiki/".toList ++ List.replicate i 'a' := List.elem_iff.1 h
    rcases List.mem_append.1 hmem with hm | hm
    · exact absurd hm (by decide)
    · exact absurd (List.eq_of_mem_replicate hm) (by decide)

theorem c2_setup :
    run enWikipediaUrl 2 (coldStart enWikipediaUrl) c2SetupTrace =
      some ⟨(List.range 102).map c2Page, [enWikipediaUrl], [], []⟩ := by
  have h3 : run enWikipediaUrl 2 (coldStart enWikipediaUrl)
      [CrawlAction.dequeue, CrawlAction.fetchOk enWikipediaUrl, CrawlAction.consume] =
      some ⟨[], [enWikipediaUrl], [], []⟩ := by decide
  have hmap : c2Hrefs.map (fun h => enWikipediaUrl ++ h) =
      (List.range 102).map c2Page := by
    simp only [c2Hrefs, List.map_map]
    rfl
  have hstep4 : step enWikipediaUrl 2 ⟨[], [enWikipediaUrl], [], []⟩
      (CrawlAction.enqueue c2Hrefs) =
      some ⟨(List.range 102).map c2Page, [enWikipediaUrl], [], []⟩ := by
    simp only [step, Option.some.injEq]
    have hall := @parseLinksFilter_all enWikipediaUrl ⟨[], [enWikipediaUrl], [], []⟩
      c2Hrefs
      (fun h hh => by
        obtain ⟨i, -, rfl⟩ := List.mem_map.1 hh
        exact validWikiHref_c2Href i)
      (fun h hh => by
        obtain ⟨i, -, rfl⟩ := List.mem_map.1 hh
        refine ⟨?_, by simp, by simp⟩
        intro hx
        have hx2 := List.mem_singleton.1 hx
        have hlen := congrArg String.length hx2
        rw [String.length_append, c2Href_length] at hlen
        omega)
    rw [List.nil_append, hall, hmap]
  have hone : run enWikipediaUrl 2 ⟨[], [enWikipediaUrl], [], []⟩
      [CrawlAction.enqueue c2Hrefs] =
      some ⟨(List.range 102).map c2Page, [enWikipediaUrl], [], []⟩ := by
    simp only [run, hstep4]
  exact run_append h3 hone

theorem c2_tail (V C : List String) (hlen : C.length = 99)
    (hn2 : c2Page 2 ∉ C) (hn1 : c2Page 1 ∉ C) :
    run enWikipediaUrl 2 ⟨[c2Page 0, c2Page 1, c2Page 2], V, [], C⟩ c2TailTrace =
      some ⟨[c2Page 0], (V ++ [c2Page 2]) ++ [c2Page 1], [],
            (C ++ [c2Page 2]) ++ [c2Page 1]⟩ := by
  have hb : C.length < DOWNLOADED_RESPONSES_TO_BUFFER := by
    rw [hlen]; simp [DOWNLOADED_RESPONSES_TO_BUFFER]
  have hne12 : c2Page 1 ≠ c2Page 2 := fun h => by
    have := c2Page_injective h
    omega
  have hs1 : step enWikipediaUrl 2 ⟨[c2Page 0, c2Page 1, c2Page 2], V, [], C⟩
      CrawlAction.dequeue =
      some ⟨[c2Page 0, c2Page 1], V ++ [c2Page 2], [c2Page 2], C⟩ := by
    have h0 := @step_dequeue_concat enWikipediaUrl 2
      ⟨[c2Page 0, c2Page 1, c2Page 2], V, [], C⟩ [c2Page 0, c2Page 1] (c2Page 2)
      rfl hb (by simp)
    simpa using h0
  have hs2 : step enWikipediaUrl 2
      ⟨[c2Page 0, c2Page 1], V ++ [c2Page 2], [c2Page 2], C⟩ CrawlAction.dequeue =
      some ⟨[c2Page 0], (V ++ [c2Page 2]) ++ [c2Page 1],
            [c2Page 2, c2Page 1], C⟩ := by
    have h0 := @step_dequeue_concat enWikipediaUrl 2
      ⟨[c2Page 0, c2Page 1], V ++ [c2Page 2], [c2Page 2], C⟩ [c2Page 0] (c2Page 1)
      rfl hb (by simp)
    simpa using h0
  have hs3 : step enWikipediaUrl 2
      ⟨[c2Page 0], (V ++ [c2Page 2]) ++ [c2Page 1], [c2Page 2, c2Page 1], C⟩
      (CrawlAction.fetchOk (c2Page 2)) =
      some ⟨[c2Page 0], (V ++ [c2Page 2]) ++ [c2Page 1], [c2Page 1],
            C ++ [c2Page 2]⟩ := by
    have h0 := @step_fetchOk_eq enWikipediaUrl 2
      ⟨[c2Page 0], (V ++ [c2Page 2]) ++ [c2Page 1], [c2Page 2, c2Page 1], C⟩
      (c2Page 2) (List.mem_cons_self _ _)
    rw [h0, insertKey_of_not_mem hn2]
    simp
  have hn1b : c2Page 1 ∉ C ++ [c2Page 2] := by
    intro hx
    rcases List.mem_append.1 hx with hx | hx
    · exact hn1 hx
    · exact hne12 (List.mem_singleton.1 hx)
  have hs4 : step enWikipediaUrl 2
      ⟨[c2Page 0], (V ++ [c2Page 2]) ++ [c2Page 1], [c2Page 1], C ++ [c2Page 2]⟩
      (CrawlAction.fetchOk (c2Page 1)) =
      some ⟨[c2Page 0], (V ++ [c2Page 2]) ++ [c2Page 1], [],
            (C ++ [c2Page 2]) ++ [c2Page 1]⟩ := by
    have h0 := @step_fetchOk_eq enWikipediaUrl 2
      ⟨[c2Page 0], (V ++ [c2Page 2]) ++ [c2Page 1], [c2Page 1], C ++ [c2Page 2]⟩
      (c2Page 1) (List.mem_singleton.2 rfl)
    rw [h0, insertKey_of_not_mem hn1b]
    simp
  simp only [c2TailTrace, run, hs1, hs2, hs3, hs4]

theorem c2FillQ_prop :
    c2FillQ.Nodup ∧ c2FillQ.length = 99 ∧
    c2Page 2 ∉ c2FillQ ∧ c2Page 1 ∉ c2FillQ := by
  have hinj : Function.Injective (fun i => c2Page (3 + i)) := by
    intro i j h
    have := c2Page_injective h
    omega
  refine ⟨(List.nodup_range 99).map hinj, by simp [c2FillQ], ?_, ?_⟩
  · intro hx
    obtain ⟨i, -, hi⟩ := List.mem_map.1 hx
    have := c2Page_injective hi
    omega
  · intro hx
    obtain ⟨i, -, hi⟩ := List.mem_map.1 hx
    have := c2Page_injective hi
    omega

/-- C2 counterexample: with `N = 2` concurrent workers the claim
"`len(downloaded_responses)` never exceeds 100" is false: in the execution
`c2Trace`, both workers pass the `< 100` check while the buffer holds 99
entries and then both insert, leaving 101 buffered responses (the check and
the insert are not one atomic region — the insert happens outside the lock
after the fetch). -/
theorem buffer_counterexample :
    (run enWikipediaUrl 2 (coldStart enWikipediaUrl) c2Trace).map
      (fun s => s.downloaded_responses.length) = some 101 ∧
    DOWNLOADED_RESPONSES_TO_BUFFER < 101 := by
  obtain ⟨hnd, hlenQ, hn2, hn1⟩ := c2FillQ_prop
  have hsplit : (List.range 102).map c2Page =
      [c2Page 0, c2Page 1, c2Page 2] ++ c2FillQ := by
    have e1 : (List.range 3).map c2Page = [c2Page 0, c2Page 1, c2Page 2] := by
      rw [show List.range 3 = [0, 1, 2] from by decide]
      rfl
    have e2 : ((List.range 99).map (fun x => 3 + x)).map c2Page = c2FillQ := by
      simp [List.map_map, c2FillQ, Function.comp]
    rw [show (102:Nat) = 3 + 99 from rfl, List.range_add, List.map_append, e1, e2]
  have hsetup := c2_setup
  rw [hsplit] at hsetup
  have hfill := @fill_run enWikipediaUrl 2 (by omega) c2FillQ
    [c2Page 0, c2Page 1, c2Page 2] [enWikipediaUrl] [] hnd (by simp)
    (by rw [hlenQ]; simp [DOWNLOADED_RESPONSES_TO_BUFFER])
  rw [List.nil_append] at hfill
  have htail := c2_tail ([enWikipediaUrl] ++ c2FillQ.reverse) c2FillQ.reverse
    (by rw [List.length_reverse, hlenQ])
    (by rw [List.mem_reverse]; exact hn2)
    (by rw [List.mem_reverse]; exact hn1)
  have hrun : run enWikipediaUrl 2 (coldStart enWikipediaUrl) c2Trace =
      some ⟨[c2Page 0],
            (([enWikipediaUrl] ++ c2FillQ.reverse) ++ [c2Page 2]) ++ [c2Page 1], [],
            (c2FillQ.reverse ++ [c2Page 2]) ++ [c2Page 1]⟩ :=
    run_append hsetup (run_append hfill htail)
  rw [hrun]
  refine ⟨?_, by simp [DOWNLOADED_RESPONSES_TO_BUFFER]⟩
  simp [hlenQ]

/-- C2 (amended): with `N` workers the buffer size never exceeds
`DOWNLOADED_RESPONSES_TO_BUFFER - 1 + N` (i.e. `B + N - 1`); the claimed
bound `B = 100` holds exactly for `N = 1`.  `BufferInv` holds at the cold
start and is preserved by every execution. -/
theorem buffer_bound_amended (base : String) (N : Nat) (s : ScraperState)
    (acts : List CrawlAction) (s' : ScraperState)
    (h : run base N s acts = some s') (hinv : BufferInv N s) :
    BufferInv N s' ∧
    s'.downloaded_responses.length ≤ (DOWNLOADED_RESPONSES_TO_BUFFER - 1) + N := by
  have hinv' := run_bufferInv h hinv
  exact ⟨hinv', by have := hinv'.2; omega⟩

/-- Witness for C2 (amended): a one-worker, one-dequeue run from the cold
start. -/
theorem buffer_bound_amended_witness :
    BufferInv 1 (ScraperState.mk [] ["u"] ["u"] []) ∧
    (ScraperState.mk [] ["u"] ["u"] []).downloaded_responses.length ≤
      (DOWNLOADED_RESPONSES_TO_BUFFER - 1) + 1 :=
  buffer_bound_amended "b" 1 (coldStart "u") [CrawlAction.dequeue]
    ⟨[], ["u"], ["u"], []⟩ (by decide) (by constructor <;> decide)

/-! ## C3 — driver protocol of `__next__` -/

/-- C3: `__next__` signals end-of-sequence exactly when `links_to_visit`,
`currently_downloading` and `downloaded_responses` are simultaneously empty,
and it leaves the state unchanged then, so every later call in the drained
state raises the same terminal signal; when not drained and the buffer is
empty it returns the not-ready triple (distinct from end-of-sequence);
otherwise it pops the first buffered response and returns it as a ready
page. -/
theorem next_protocol (s : ScraperState) :
    (isDrained s = true → nextStep s = (NextResult.stop, s) ∧
      nextStep (nextStep s).2 = (NextResult.stop, s)) ∧
    (isDrained s = false → s.downloaded_responses = [] →
      nextStep s = (NextResult.notReady, s)) ∧
    (∀ u rest, s.downloaded_responses = u :: rest →
      nextStep s = (NextResult.ready u,
        ⟨s.links_to_visit, s.visited_links, s.currently_downloading, rest⟩)) ∧
    NextResult.notReady ≠ NextResult.stop := by
  refine ⟨?_, ?_, ?_, by simp⟩
  · intro h
    constructor <;> simp [nextStep, h]
  · intro h hd
    simp [nextStep, h, hd]
  · intro u rest hd
    have hnd : isDrained s = false := by
      simp [isDrained, hd]
    simp [nextStep, hnd, hd]

/-- Witness for C3: the three branches at concrete states. -/
theorem next_protocol_witness :
    (nextStep ⟨[], ["v"], [], []⟩ = (NextResult.stop, ⟨[], ["v"], [], []⟩) ∧
      nextStep (nextStep ⟨[], ["v"], [], []⟩).2 = (NextResult.stop, ⟨[], ["v"], [], []⟩)) ∧
    nextStep ⟨["x"], [], [], []⟩ = (NextResult.notReady, ⟨["x"], [], [], []⟩) ∧
    nextStep ⟨[], ["v"], [], ["u", "w"]⟩ =
      (NextResult.ready "u", ⟨[], ["v"], [], ["w"]⟩) :=
  ⟨(next_protocol ⟨[], ["v"], [], []⟩).1 (by decide),
   (next_protocol ⟨["x"], [], [], []⟩).2.1 (by decide) rfl,
   (next_protocol ⟨[], ["v"], [], ["u", "w"]⟩).2.2.1 "u" ["w"] rfl⟩

/-! ## C4 — dropped URLs on fetch failure -/

/-- C4 counterexample: the claim "a fetch-failed URL is never inserted into
completed and is permanently dropped" is false.  In the single-worker
execution `c4Trace` from the cold start, the seed page carries two anchors
to `/wiki/D`; `parse_links` does not check `links_to_visit`, so both copies
are enqueued.  The first fetch of `D` fails (`CrawlAction.fetchFail c4PageD`
is in the trace), yet the duplicate pending copy is dequeued and fetched
successfully, and the final `downloaded_responses` contains the
fetch-failed URL. -/
theorem fetchFail_counterexample :
    CrawlAction.fetchFail c4PageD ∈ c4Trace ∧
    (run enWikipediaUrl 1 (coldStart enWikipediaUrl) c4Trace).map
      (fun s => decide (c4PageD ∈ s.downloaded_responses)) = some true := by
  decide

/-- C4 (amended): when a fetch fails, the URL is removed from
`currently_downloading` and nothing else changes — that failing fetch
inserts nothing into `downloaded_responses` and re-enqueues nothing;
moreover, if at that point the failed URL (already recorded in
`visited_links`) sits in none of the other collections — in particular no
duplicate copy of it remains in `links_to_visit`, which can only exist via
the dedup flaw of C1 — then no later execution ever brings it back into
`links_to_visit`, `currently_downloading` or `downloaded_responses` (no
retry). -/
theorem fetchFail_drops_url (base : String) (N : Nat) (s s' : ScraperState)
    (url : String) (h : step base N s (CrawlAction.fetchFail url) = some s') :
    (s'.links_to_visit = s.links_to_visit ∧
     s'.visited_links = s.visited_links ∧
     s'.currently_downloading = s.currently_downloading.erase url ∧
     s'.downloaded_responses = s.downloaded_responses) ∧
    (∀ acts s2, run base N s' acts = some s2 →
      DroppedUrl url s' → DroppedUrl url s2) := by
  constructor
  · simp only [step] at h
    split at h
    · cases h; exact ⟨rfl, rfl, rfl, rfl⟩
    · exact absurd h (by simp)
  · intro acts s2 h2 hd
    exact run_dropped h2 hd

/-- Witness for C4: a failed fetch of `u` from a state where `u` is the
only downloading URL, followed by a page that links to `u` again — the
enqueue is filtered out by `visited_links`. -/
theorem fetchFail_drops_url_witness :
    ((ScraperState.mk [] [c1PageB] [] []).links_to_visit =
       (ScraperState.mk [] [c1PageB] [c1PageB] []).links_to_visit ∧
     (ScraperState.mk [] [c1PageB] [] []).visited_links =
       (ScraperState.mk [] [c1PageB] [c1PageB] []).visited_links ∧
     (ScraperState.mk [] [c1PageB] [] []).currently_downloading =
       (ScraperState.mk [] [c1PageB] [c1PageB] []).currently_downloading.erase c1PageB ∧
     (ScraperState.mk [] [c1PageB] [] []).downloaded_responses =
       (ScraperState.mk [] [c1PageB] [c1PageB] []).downloaded_responses) ∧
    DroppedUrl c1PageB (ScraperState.mk [] [c1PageB] [] []) :=
  ⟨(fetchFail_drops_url enWikipediaUrl 1 ⟨[], [c1PageB], [c1PageB], []⟩
      ⟨[], [c1PageB], [], []⟩ c1PageB (by decide)).1,
   (fetchFail_drops_url enWikipediaUrl 1 ⟨[], [c1PageB], [c1PageB], []⟩
      ⟨[], [c1PageB], [], []⟩ c1PageB (by decide)).2
     [CrawlAction.enqueue ["/wiki/B"]] ⟨[], [c1PageB], [], []⟩ (by decide)
     (by refine ⟨by decide, by decide, by decide, by decide⟩)⟩

/-! ## C5 — progress-file freshness -/

/-- C5: among the progress slots that parse, `load_progress_file` restores
the one with the strictly larger timestamp (in either slot order); a
missing or truncated slot is skipped; when no slot parses the load fails
and `__iter__` seeds the initial URL (cold start). -/
theorem load_progress_freshest (p1 p2 q : Progress)
    (h : p1.timestamp < p2.timestamp) (u : String) :
    load_progress_file [some p1, some p2] = some p2 ∧
    load_progress_file [some p2, some p1] = some p2 ∧
    load_progress_file [some q, none] = some q ∧
    load_progress_file [none, some q] = some q ∧
    load_progress_file [none, none] = none ∧
    iterInit u (load_progress_file [none, none]) = coldStart u := by
  have h2 : ¬ p2.timestamp < p1.timestamp := lt_asymm h
  refine ⟨?_, ?_, ?_, ?_, ?_, ?_⟩ <;>
    simp [load_progress_file, sortDescStable, insertDesc, iterInit, h, h2]

/-- Witness for C5: two concrete records with timestamps 1 < 2. -/
theorem load_progress_freshest_witness :
    load_progress_file [some ⟨1, [], []⟩, some ⟨2, ["a"], ["b"]⟩] =
      some ⟨2, ["a"], ["b"]⟩ ∧
    load_progress_file [some ⟨2, ["a"], ["b"]⟩, some ⟨1, [], []⟩] =
      some ⟨2, ["a"], ["b"]⟩ ∧
    load_progress_file [some ⟨3, ["c"], []⟩, none] = some ⟨3, ["c"], []⟩ ∧
    load_progress_file [none, some ⟨3, ["c"], []⟩] = some ⟨3, ["c"], []⟩ ∧
    load_progress_file [none, none] = none ∧
    iterInit "u" (load_progress_file [none, none]) = coldStart "u" :=
  load_progress_freshest ⟨1, [], []⟩ ⟨2, ["a"], ["b"]⟩ ⟨3, ["c"], []⟩
    (by norm_num) "u"

/-! ## C6 — checkpoint round-trip -/

/-- C6: snapshotting `links_to_visit + currently_downloading` and
`visited_links` and restoring the snapshot yields a `links_to_visit` equal
as a set to the snapshotted pending ∪ in-flight URLs, and a `visited_links`
equal as a set to the snapshotted visited set; an older record in the other
alternating slot does not change the restored state. -/
theorem checkpoint_roundtrip (t : ℚ) (s : ScraperState) (u0 url : String) :
    (url ∈ (iterInit u0
        (load_progress_file [some (progressSnapshot t s), none])).links_to_visit ↔
      (url ∈ s.links_to_visit ∨ url ∈ s.currently_downloading)) ∧
    (url ∈ (iterInit u0
        (load_progress_file [some (progressSnapshot t s), none])).visited_links ↔
      url ∈ s.visited_links) ∧
    (∀ q : Progress, q.timestamp < t →
      iterInit u0 (load_progress_file [some q, some (progressSnapshot t s)]) =
        iterInit u0 (load_progress_file [some (progressSnapshot t s), none])) := by
  have hload : load_progress_file [some (progressSnapshot t s), none] =
      some (progressSnapshot t s) := by
    simp [load_progress_file, sortDescStable, insertDesc]
  refine ⟨?_, ?_, ?_⟩
  · rw [hload]
    simp [iterInit, progressSnapshot, List.mem_append]
  · rw [hload]
    simp [iterInit, progressSnapshot]
  · intro q hq
    have hload2 : load_progress_file [some q, some (progressSnapshot t s)] =
        some (progressSnapshot t s) := by
      have hqt : q.timestamp < (progressSnapshot t s).timestamp := hq
      simp [load_progress_file, sortDescStable, insertDesc, hqt]
    rw [hload, hload2]

/-- Witness for C6: a concrete snapshot at time 2 restored next to an older
record at time 1. -/
theorem checkpoint_roundtrip_witness :
    ("c" ∈ (iterInit "u"
        (load_progress_file
          [some (progressSnapshot 2 ⟨["a"], ["b"], ["c"], []⟩), none])).links_to_visit ↔
      ("c" ∈ (ScraperState.mk ["a"] ["b"] ["c"] []).links_to_visit ∨
       "c" ∈ (ScraperState.mk ["a"] ["b"] ["c"] []).currently_downloading)) ∧
    iterInit "u" (load_progress_file
        [some ⟨1, ["z"], []⟩, some (progressSnapshot 2 ⟨["a"], ["b"], ["c"], []⟩)]) =
      iterInit "u" (load_progress_file
        [some (progressSnapshot 2 ⟨["a"], ["b"], ["c"], []⟩), none]) :=
  ⟨(checkpoint_roundtrip 2 ⟨["a"], ["b"], ["c"], []⟩ "u" "c").1,
   (checkpoint_roundtrip 2 ⟨["a"], ["b"], ["c"], []⟩ "u" "c").2.2 ⟨1, ["z"], []⟩
     (by norm_num)⟩

/-! ## C9 — LIFO dequeue order -/

/-- C9: both pops are LIFO.  When `links_to_visit = l ++ [u]`, the buffer
is below the bound and a worker is idle, `dequeue` removes and returns the
most recently added URL `u`, appending it to `currently_downloading` and
`visited_links`; and `available_pages.pop()` removes and returns the most
recently pushed `(title, content)` pair. -/
theorem dequeue_lifo (base : String) (N : Nat) (s : ScraperState)
    (l : List String) (u : String) (hp : s.links_to_visit = l ++ [u])
    (hb : s.downloaded_responses.length < DOWNLOADED_RESPONSES_TO_BUFFER)
    (hw : s.currently_downloading.length < N) :
    step base N s CrawlAction.dequeue =
      some ⟨l, s.visited_links ++ [u], s.currently_downloading ++ [u],
            s.downloaded_responses⟩ ∧
    ∀ (ps : List (String × String)) (p : String × String),
      sfTryPop (ps ++ [p]) = some (p, ps) := by
  constructor
  · have hlen : 0 < s.links_to_visit.length := by rw [hp]; simp
    have hg : s.links_to_visit.getLast? = some u := by
      rw [hp]; exact List.getLast?_concat _
    simp only [step, if_pos (show _ ∧ _ ∧ _ from ⟨hlen, hb, hw⟩), hg]
    rw [hp, List.dropLast_concat]
  · intro ps p
    simp [sfTryPop, List.getLast?_concat]

/-- Witness for C9: a two-element pending list and a two-element page
queue. -/
theorem dequeue_lifo_witness :
    step "b" 1 ⟨["a", "c"], [], [], []⟩ CrawlAction.dequeue =
      some ⟨["a"], [] ++ ["c"], [] ++ ["c"], []⟩ ∧
    sfTryPop [("t1", "c1"), ("t2", "c2")] = some (("t2", "c2"), [("t1", "c1")]) :=
  ⟨(dequeue_lifo "b" 1 ⟨["a", "c"], [], [], []⟩ ["a"] "c" rfl (by decide)
      (by decide)).1,
   (dequeue_lifo "b" 1 ⟨["a", "c"], [], [], []⟩ ["a"] "c" rfl (by decide)
      (by decide)).2 [("t1", "c1")] ("t2", "c2")⟩

/-! ## Lemmas about the sentence-candidate scanner -/

theorem splitAtTerminator_spec :
    ∀ {l body : List Char} {term : Char} {after : List Char},
      splitAtTerminator l = some (body, term, after) →
      l = body ++ term :: after ∧ isTerminatorChar term = true ∧
      ∀ x ∈ body, isTerminatorChar x = false
  | [], _, _, _, h => by simp [splitAtTerminator] at h
  | c :: rest, body, term, after, h => by
    simp only [splitAtTerminator] at h
    split at h
    · rename_i ht
      cases h
      exact ⟨rfl, ht, by simp⟩
    · rename_i ht
      cases hs : splitAtTerminator rest with
      | none => rw [hs] at h; exact absurd h (by simp)
      | some r =>
        obtain ⟨b2, t2, a2⟩ := r
        rw [hs] at h
        cases h
        obtain ⟨he, ht2, hb⟩ := splitAtTerminator_spec hs
        refine ⟨by rw [List.cons_append, ← he], ht2, ?_⟩
        intro x hx
        rcases List.mem_cons.1 hx with hx | hx
        · subst hx; simpa using ht
        · exact hb x hx

theorem splitAtTerminator_of_clean :
    ∀ {mid : List Char}, (∀ x ∈ mid, isTerminatorChar x = false) →
      ∀ {c : Char}, isTerminatorChar c = true → ∀ (rest : List Char),
      splitAtTerminator (mid ++ c :: rest) = some (mid, c, rest)
  | [], _, c, hc, rest => by simp [splitAtTerminator, hc]
  | m :: mid, hm, c, hc, rest => by
    have hm0 : isTerminatorChar m = false := hm m (by simp)
    have ih := splitAtTerminator_of_clean
      (fun x hx => hm x (List.mem_cons_of_mem m hx)) hc rest
    rw [List.cons_append]
    simp [splitAtTerminator, hm0, ih]

theorem ruleCandidates_of_suffix {l : List Char} {c : Char}
    {rest body : List Char} {term : Char} {after : List Char}
    (hs : (c :: rest) <:+ l) (hu : isAsciiUpperChar c = true)
    (hsplit : splitAtTerminator rest = some (body, term, after)) :
    (c :: (body ++ [term])) ∈ ruleCandidates l := by
  unfold ruleCandidates
  rw [List.mem_filterMap]
  refine ⟨c :: rest, (List.mem_tails _ _).2 hs, ?_⟩
  simp [ruleCandidateOf, hu, hsplit]

theorem ruleCandidates_shape {l cand : List Char} (h : cand ∈ ruleCandidates l) :
    ∃ c body term, cand = c :: (body ++ [term]) ∧ isAsciiUpperChar c = true ∧
      isTerminatorChar term = true ∧ ∀ x ∈ body, isTerminatorChar x = false := by
  unfold ruleCandidates at h
  rw [List.mem_filterMap] at h
  obtain ⟨t, ht, hf⟩ := h
  match t with
  | [] => simp [ruleCandidateOf] at hf
  | c :: rest =>
    simp only [ruleCandidateOf] at hf
    by_cases hu : isAsciiUpperChar c = true
    · rw [if_pos hu] at hf
      cases hs : splitAtTerminator rest with
      | none => rw [hs] at hf; exact absurd hf (by simp)
      | some r =>
        obtain ⟨body, term, after⟩ := r
        rw [hs] at hf
        simp only [Option.some.injEq] at hf
        obtain ⟨-, hterm, hclean⟩ := splitAtTerminator_spec hs
        exact ⟨c, body, term, hf.symm, hu, hterm, hclean⟩
    · rw [if_neg hu] at hf
      exact absurd hf (by simp)

theorem findSentencesAux_sound {l : List Char} :
    ∀ (rest : List Char) (acc : Option (List Char)),
      (match acc with
       | none => rest <:+ l
       | some a => ∃ c0 mid, a.reverse = c0 :: mid ∧
           isAsciiUpperChar c0 = true ∧
           (∀ x ∈ mid, isTerminatorChar x = false) ∧
           (c0 :: (mid ++ rest)) <:+ l) →
      ∀ cand ∈ findSentencesAux acc rest, cand ∈ ruleCandidates l
  | [], acc, _, cand, hc => by
    simp [findSentencesAux] at hc
  | c :: rs, none, hinv, cand, hc => by
    simp only [findSentencesAux] at hc
    split at hc
    · rename_i hu
      refine findSentencesAux_sound rs (some [c]) ?_ cand hc
      exact ⟨c, [], rfl, hu, by simp, by simpa using hinv⟩
    · refine findSentencesAux_sound rs none ?_ cand hc
      exact (List.suffix_cons c rs).trans hinv
  | c :: rs, some a, hinv, cand, hc => by
    obtain ⟨c0, mid, hrev, hu, hclean, hsuf⟩ := hinv
    simp only [findSentencesAux] at hc
    split at hc
    · rename_i hterm
      rcases List.mem_cons.1 hc with hc | hc
      · subst hc
        have hsplit : splitAtTerminator (mid ++ c :: rs) = some (mid, c, rs) :=
          splitAtTerminator_of_clean hclean hterm rs
        have := ruleCandidates_of_suffix hsuf hu hsplit
        rw [hrev]
        simpa using this
      · refine findSentencesAux_sound rs none ?_ cand hc
        refine List.IsSuffix.trans ?_ hsuf
        exact ⟨c0 :: (mid ++ [c]), by simp⟩
    · rename_i hterm
      refine findSentencesAux_sound rs (some (c :: a)) ?_ cand hc
      refine ⟨c0, mid ++ [c], by simp [hrev], hu, ?_, by simpa using hsuf⟩
      intro x hx
      rcases List.mem_append.1 hx with hx | hx
      · exact hclean x hx
      · simp at hx
        subst hx
        simpa using hterm

theorem findSentencesAux_clean_block :
    ∀ (mid : List Char) (a : List Char) (term : Char) (post : List Char),
      (∀ x ∈ mid, isTerminatorChar x = false) → isTerminatorChar term = true →
      findSentencesAux (some a) (mid ++ term :: post) =
        ((a.reverse ++ mid) ++ [term]) :: findSentencesAux none post
  | [], a, term, post, _, hterm => by
    simp [findSentencesAux, hterm]
  | m :: mid, a, term, post, hmid, hterm => by
    have hm : isTerminatorChar m = false := hmid m (List.mem_cons_self _ _)
    have ih := findSentencesAux_clean_block mid (m :: a) term post
      (fun x hx => hmid x (List.mem_cons_of_mem m hx)) hterm
    rw [List.cons_append]
    simp only [findSentencesAux, hm]
    rw [if_neg (by simp [hm]), ih]
    simp

theorem findSentencesAux_covers {c0 : Char} {mid : List Char} {term : Char}
    {post : List Char} (hup : isAsciiUpperChar c0 = true)
    (hc0 : isTerminatorChar c0 = false)
    (hmid : ∀ x ∈ mid, isTerminatorChar x = false)
    (hterm : isTerminatorChar term = true) :
    ∀ (x : List Char) (acc : Option (List Char)),
      ∃ cand ∈ findSentencesAux acc (x ++ ((c0 :: mid) ++ [term]) ++ post),
        ((c0 :: mid) ++ [term]) <:+: cand
  | [], none => by
    simp only [List.nil_append, List.cons_append, List.append_assoc]
    simp only [findSentencesAux, hup, if_true]
    rw [findSentencesAux_clean_block mid [c0] term post hmid hterm]
    exact ⟨(([c0].reverse ++ mid) ++ [term]), List.mem_cons_self _ _, by simp⟩
  | [], some a => by
    simp only [List.nil_append, List.cons_append, List.append_assoc]
    simp only [findSentencesAux, hc0]
    rw [if_neg (by simp [hc0])]
    rw [findSentencesAux_clean_block mid (c0 :: a) term post hmid hterm]
    refine ⟨(((c0 :: a).reverse ++ mid) ++ [term]), List.mem_cons_self _ _, ?_⟩
    refine ⟨a.reverse, [], ?_⟩
    simp
  | c :: xs, none => by
    rw [List.cons_append]
    by_cases hu : isAsciiUpperChar c = true
    · simp only [findSentencesAux, hu, if_true]
      exact findSentencesAux_covers hup hc0 hmid hterm xs (some [c])
    · simp only [findSentencesAux]
      rw [if_neg hu]
      exact findSentencesAux_covers hup hc0 hmid hterm xs none
  | c :: xs, some a => by
    rw [List.cons_append]
    by_cases ht : isTerminatorChar c = true
    · simp only [findSentencesAux, ht, if_true]
      obtain ⟨cand, hmem, hinf⟩ := findSentencesAux_covers hup hc0 hmid hterm xs none
      exact ⟨cand, List.mem_cons_of_mem _ hmem, hinf⟩
    · simp only [findSentencesAux]
      rw [if_neg ht]
      exact findSentencesAux_covers hup hc0 hmid hterm xs (some (c :: a))

theorem findSentences_covering (pre post : List Char) (c0 : Char) (mid : List Char)
    (term : Char) (hup : isAsciiUpperChar c0 = true)
    (hc0 : isTerminatorChar c0 = false)
    (hmid : ∀ x ∈ mid, isTerminatorChar x = false)
    (hterm : isTerminatorChar term = true) :
    ∃ cand ∈ findSentences (pre ++ ((c0 :: mid) ++ [term]) ++ post),
      ((c0 :: mid) ++ [term]) <:+: cand :=
  findSentencesAux_covers hup hc0 hmid hterm pre none

theorem containsCI_of_suffix {pat t l : List Char} (hs : t <:+ l)
    (hp : startsWithCI pat t = true) : containsCI pat l = true :=
  List.any_of_mem ((List.mem_tails _ _).2 hs) hp

theorem matchesEnglish_of_infix (c : List Char)
    (h : "The trip took three days.".toList <:+: c) :
    matchesEnglishPattern c = true := by
  obtain ⟨u, v, hc⟩ := h
  subst hc
  unfold matchesEnglishPattern
  have hsplit : "The trip took three days.".toList =
      "The trip ".toList ++ "took three days.".toList := by decide
  have hmem : ("took three days.".toList ++ v) ∈
      (u ++ "The trip took three days.".toList ++ v).tails := by
    refine (List.mem_tails _ _).2 ⟨u ++ "The trip ".toList, ?_⟩
    rw [hsplit]
    simp
  refine List.any_of_mem hmem ?_
  rw [Bool.and_eq_true]
  constructor
  · rfl
  · have hdrop : ("took three days.".toList ++ v).drop 4 =
        " three days.".toList ++ v := by
      rw [List.drop_append_of_le_length (by decide)]
      rfl
    rw [hdrop]
    exact containsCI_of_suffix
      (show (" days.".toList ++ v) <:+ (" three days.".toList ++ v) from
        ⟨" three".toList, by rw [← List.append_assoc]; rfl⟩) rfl

theorem not_terminator_of_upper {c : Char} (h : isAsciiUpperChar c = true) :
    isTerminatorChar c = false := by
  simp only [isAsciiUpperChar, Bool.and_eq_true, decide_eq_true_eq] at h
  simp only [isTerminatorChar, Bool.or_eq_false_iff, decide_eq_false_iff_not]
  refine ⟨⟨?_, ?_⟩, ?_⟩ <;> rintro rfl <;> exact absurd h (by decide)

theorem ruleCandidates_covered {s r : List Char} (h : r ∈ ruleCandidates s) :
    ∃ cand ∈ findSentences s, r <:+: cand := by
  unfold ruleCandidates at h
  rw [List.mem_filterMap] at h
  obtain ⟨t, ht, hf⟩ := h
  match t with
  | [] => simp [ruleCandidateOf] at hf
  | c :: rest =>
    simp only [ruleCandidateOf] at hf
    by_cases hu : isAsciiUpperChar c = true
    · rw [if_pos hu] at hf
      cases hs : splitAtTerminator rest with
      | none => rw [hs] at hf; exact absurd hf (by simp)
      | some rr =>
        obtain ⟨body, term, after⟩ := rr
        rw [hs] at hf
        simp only [Option.some.injEq] at hf
        obtain ⟨hrest, hterm, hbody⟩ := splitAtTerminator_spec hs
        obtain ⟨pre, hpre⟩ := (List.mem_tails _ _).1 ht
        have hc0 := not_terminator_of_upper hu
        have hcov := findSentences_covering pre after c body term hu hc0 hbody hterm
        have hs_eq : pre ++ ((c :: body) ++ [term]) ++ after = s := by
          rw [← hpre, hrest]
          simp
        rw [hs_eq] at hcov
        obtain ⟨cand, hmem, hinf⟩ := hcov
        refine ⟨cand, hmem, ?_⟩
        rw [← hf]
        simpa using hinf
    · rw [if_neg hu] at hf
      exact absurd hf (by simp)

/-! ## C7 — sentence-candidate extraction -/

/-- C7 counterexample: the claim "the extraction returns exactly the
substrings that start with an uppercase letter and run until the first
terminator" is false.  In `"ABc."` the substring `"Bc."` starts with an
uppercase letter and runs to the first terminator, yet `re.findall` — which
scans left to right without overlaps — returns only `"ABc."`. -/
theorem findSentences_counterexample :
    findSentences "ABc.".toList = ["ABc.".toList] ∧
    "Bc.".toList ∈ ruleCandidates "ABc.".toList ∧
    "Bc.".toList ∉ findSentences "ABc.".toList := by
  refine ⟨by decide, by decide, by decide⟩

/-- C7 (amended): the extraction returns the leftmost non-overlapping
substrings that start with an `[A-Z]` letter and run until the first `.`,
`!` or `?`: every candidate it returns is such a substring — it begins with
an uppercase ASCII letter (the class is ASCII `A–Z` regardless of the
document's language), ends with a terminator, and contains no terminator
before its final character — and conversely every such substring of the
document is contained in one of the returned candidates, though overlapping
substrings are not returned separately. -/
theorem findSentences_sound (s : List Char) :
    (∀ cand ∈ findSentences s, cand ∈ ruleCandidates s ∧
      ∃ c body term, cand = c :: (body ++ [term]) ∧ isAsciiUpperChar c = true ∧
        isTerminatorChar term = true ∧ ∀ x ∈ body, isTerminatorChar x = false) ∧
    (∀ r ∈ ruleCandidates s, ∃ cand ∈ findSentences s, r <:+: cand) := by
  constructor
  · intro cand h
    have hmem : cand ∈ ruleCandidates s :=
      findSentencesAux_sound s none List.suffix_rfl cand h
    exact ⟨hmem, ruleCandidates_shape hmem⟩
  · intro r hr
    exact ruleCandidates_covered hr

/-- Witness for C7 (amended): the single candidate of `"Ab."`, and the
covered overlapping rule-substring `"Bc."` of `"ABc."`. -/
theorem findSentences_sound_witness :
    ("Ab.".toList ∈ ruleCandidates "Ab.".toList ∧
      ∃ c body term, "Ab.".toList = c :: (body ++ [term]) ∧
        isAsciiUpperChar c = true ∧ isTerminatorChar term = true ∧
        ∀ x ∈ body, isTerminatorChar x = false) ∧
    (∃ cand ∈ findSentences "ABc.".toList, "Bc.".toList <:+: cand) :=
  ⟨(findSentences_sound "Ab.".toList).1 "Ab.".toList (by decide),
   (findSentences_sound "ABc.".toList).2 "Bc.".toList (by decide)⟩

/-! ## C8 — English sentence filter -/

/-- C8 counterexample: the claim "every document whose body text contains
`The trip took three days.` yields that sentence as a match" is false: in
the body text `"Xy The trip took three days."` (which contains the
sentence, as the stated concatenation shows) the candidate scan starts at
the earlier uppercase `X`, so the single match is the longer candidate and
the exact sentence is not among the matches. -/
theorem english_filter_counterexample :
    "Xy The trip took three days.".toList =
      "Xy ".toList ++ "The trip took three days.".toList ∧
    extractedSentences matchesEnglishPattern "Xy The trip took three days." =
      ["Xy The trip took three days.".toList] ∧
    "The trip took three days.".toList ∉
      extractedSentences matchesEnglishPattern "Xy The trip took three days." := by
  refine ⟨by decide, by decide, by decide⟩

/-- C8 (amended): every normalized body text that contains
`"The trip took three days."` yields at least one matched sentence — a
candidate containing the sentence — though not necessarily that exact
sentence as the match; when the body text is exactly that sentence, the
sentence itself is the match; for the body text `"The sky is blue."` no
match is yielded. -/
theorem english_filter_amended :
    (∀ t : List Char, "The trip took three days.".toList <:+: t →
      (findSentences t).filter matchesEnglishPattern ≠ []) ∧
    extractedSentences matchesEnglishPattern "The trip took three days." =
      ["The trip took three days.".toList] ∧
    extractedSentences matchesEnglishPattern "The sky is blue." = [] := by
  refine ⟨?_, by decide, by decide⟩
  intro t h
  obtain ⟨u, v, hc⟩ := h
  have hS : "The trip took three days.".toList =
      ('T' :: "he trip took three days".toList) ++ ['.'] := by decide
  rw [hS] at hc
  obtain ⟨cand, hmem, hinf⟩ := findSentences_covering u v 'T'
    "he trip took three days".toList '.' (by decide) (by decide) (by decide)
    (by decide)
  rw [hc] at hmem
  intro hempty
  have hcand : cand ∈ (findSentences t).filter matchesEnglishPattern := by
    refine List.mem_filter.2 ⟨hmem, ?_⟩
    refine matchesEnglish_of_infix cand ?_
    rw [hS]
    exact hinf
  rw [hempty] at hcand
  exact absurd hcand (by simp)

/-- Witness for C8 (amended): the containing document
`"Xy The trip took three days."` yields a match. -/
theorem english_filter_amended_witness :
    (findSentences "Xy The trip took three days.".toList).filter
      matchesEnglishPattern ≠ [] :=
  english_filter_amended.1 "Xy The trip took three days.".toList
    ⟨"Xy ".toList, [], by decide⟩

/-! ## C10 — output file frame property -/

/-- C10: an extraction worker appends to its output file only when at least
one candidate sentence matched the language pattern: with no match the file
contents are exactly unchanged, and with matches exactly the matched
sentences' lines are appended. -/
theorem output_file_frame (matcher : List Char → Bool) (title contentText : String)
    (fileContents : List String) :
    (extractedSentences matcher contentText = [] →
      workerProcessPage matcher title contentText fileContents = fileContents) ∧
    (extractedSentences matcher contentText ≠ [] →
      workerProcessPage matcher title contentText fileContents =
        fileContents ++
          (extractedSentences matcher contentText).map (outputLine title)) := by
  constructor
  · intro h
    simp [workerProcessPage, h]
  · intro h
    have hl : 0 < (extractedSentences matcher contentText).length :=
      List.length_pos.2 h
    simp [workerProcessPage, hl]

/-- Witness for C10: a page with no match leaves the file unchanged, a page
with a match appends its line. -/
theorem output_file_frame_witness :
    workerProcessPage matchesEnglishPattern "T" "The sky is blue." ["old"] = ["old"] ∧
    workerProcessPage matchesEnglishPattern "T" "The trip took three days." ["old"] =
      ["old"] ++
        (extractedSentences matchesEnglishPattern "The trip took three days.").map
          (outputLine "T") :=
  ⟨(output_file_frame matchesEnglishPattern "T" "The sky is blue." ["old"]).1
      (by decide),
   (output_file_frame matchesEnglishPattern "T" "The trip took three days."
      ["old"]).2 (by decide)⟩
